import Mathlib

/-!
Verification of the streaming filter pipeline in hsh_signal/filter.py.

Sample values are modelled as elements of an arbitrary commutative ring:
the Python code computes with floating-point numpy arrays, and all claims
under study are exact structural and index-bookkeeping properties that a
reimplementation over the reals (an instance of the abstraction) must
satisfy.  Concrete evaluations instantiate the ring at the integers.  The
local-oscillator mixer is modelled over the reals directly because its
carrier is a sine wave.

Each stateful block of the source becomes a structure holding exactly the
mutable attributes of the Python object, and its batch method becomes a
pure function from state and input batch to output batch and new state.
-/

namespace HshSignal

/-- Model of numpy arange(0, stop, step) for natural start 0, used by
Downsampler.batch, RegroupBatches.put and the ChunkDataSource poll loop.
For step at least 1 it lists 0, step, 2*step, ... strictly below stop. -/
def arangeStep (stop step : ℕ) : List ℕ :=
  (List.range ((stop + step - 1) / step)).map (· * step)

/-- Single output point of a valid-mode convolution: the coefficient
vector v slides reversed over the window of a starting at k, exactly
numpy convolve(a, v, mode=valid) at output index k. -/
def convAt {α : Type} [CommRing α] (a v : List α) (k : ℕ) : α :=
  ((List.range v.length).map (fun j => a.getD (k + v.length - 1 - j) 0 * v.getD j 0)).sum

/-- numpy convolve(a, v, mode=valid) for a at least as long as v, which
holds at every call site in the repository: the FIR buffer always holds
taps-1 samples and every processed batch is non-empty. -/
def convValid {α : Type} [CommRing α] (a v : List α) : List α :=
  (List.range (a.length + 1 - v.length)).map (convAt a v)

/-- Modelled from the spec: filter_fft_ff lives in hsh_signal/signal.py,
which is not part of the sources under study.  Spec section 4.3 requires the
FFT-based convolution to be numerically interchangeable with the direct
valid-mode convolution, so it is modelled as exactly that convolution. -/
def filter_fft_ff {α : Type} [CommRing α] (a v : List α) : List α :=
  convValid a v

/-- FilterBlock.put: asserts that a consumer is connected, then forwards
batch(x) to it.  The assertion failure is modelled as an error value; the
batch function is not applied on the error path. -/
def FilterBlock.put {α β γ : Type} (consumer : Option γ) (batchFn : List α → List β)
    (x : List α) : Except Unit (γ × List β) :=
  match consumer with
  | none => Except.error ()
  | some c => Except.ok (c, batchFn x)

/-- Splitter.put: the for loop forwards the same batch to every
registered consumer, in registration order; an empty consumer list is a
silent no-op. -/
def Splitter.put {α γ : Type} (consumers : List γ) (x : List α) : List (γ × List α) :=
  match consumers with
  | [] => []
  | c :: rest => (c, x) :: Splitter.put rest x

/-- State of a Delay block: the delay parameter and the internal buffer
(initialized to delay zeros). -/
structure DelayBlock (α : Type) where
  delay : ℕ
  buffer : List α
  deriving DecidableEq

/-- Delay.__init__: buffer filled with delay zeros. -/
def DelayBlock.init (α : Type) [CommRing α] (d : ℕ) : DelayBlock α :=
  ⟨d, List.replicate d 0⟩

/-- Delay.batch: append x, emit buffer[:-delay], keep buffer[-delay:].
For delay = 0 the Python slices degenerate: buffer[:-0] is buffer[:0],
the empty list, and buffer[-0:] is the whole buffer, so the block emits
nothing and its buffer grows without bound. -/
def DelayBlock.batch {α : Type} (s : DelayBlock α) (x : List α) : List α × DelayBlock α :=
  let buf := s.buffer ++ x
  if s.delay = 0 then
    ([], ⟨s.delay, buf⟩)
  else
    (buf.take (buf.length - s.delay), ⟨s.delay, buf.drop (buf.length - s.delay)⟩)

/-- Feed a list of batches through a Delay block, collecting the per-call
outputs in order. -/
def DelayBlock.run {α : Type} (s : DelayBlock α) (bs : List (List α)) :
    List (List α) × DelayBlock α :=
  match bs with
  | [] => ([], s)
  | x :: rest =>
    let p := s.batch x
    let q := p.2.run rest
    (p.1 :: q.1, q.2)

/-- State of a FIRFilter: the taps and the input buffer _buffer_x.  The
mode attribute is MODE_FFT_CONVOLVE at construction and never reassigned
anywhere in the repository, so batch always takes the filter_fft_ff path;
spec section 4.3 makes the two modes interchangeable. -/
structure FIRFilter (α : Type) where
  taps : List α
  buffer : List α
  deriving DecidableEq

/-- FIRFilter.__init__: buffer of ntaps - 1 zeros. -/
def FIRFilter.init {α : Type} [CommRing α] (taps : List α) : FIRFilter α :=
  ⟨taps, List.replicate (taps.length - 1) 0⟩

/-- FIRFilter.delay property: _ntaps_front = ntaps // 2. -/
def FIRFilter.delay {α : Type} (f : FIRFilter α) : ℕ :=
  f.taps.length / 2

/-- FIRFilter.batch: append x to the buffer, convolve, keep the slice
buffer_x[-ntaps+1:] as the new buffer.  For ntaps = 1 the Python index
-ntaps+1 is 0 and the slice keeps the entire buffer; for larger ntaps it
keeps the trailing ntaps - 1 samples. -/
def FIRFilter.batch {α : Type} [CommRing α] (f : FIRFilter α) (x : List α) :
    List α × FIRFilter α :=
  let buf := f.buffer ++ x
  let filtered := filter_fft_ff buf f.taps
  let newbuf := if f.taps.length ≤ 1 then buf else buf.drop (buf.length - (f.taps.length - 1))
  (filtered, ⟨f.taps, newbuf⟩)

/-- Feed a list of batches through a FIRFilter, collecting the per-call
outputs in order. -/
def FIRFilter.run {α : Type} [CommRing α] (f : FIRFilter α) (bs : List (List α)) :
    List (List α) × FIRFilter α :=
  match bs with
  | [] => ([], f)
  | x :: rest =>
    let p := f.batch x
    let q := p.2.run rest
    (p.1 :: q.1, q.2)

/-- HilbertImag.__init__: force ntaps odd by adding 1 - ntaps % 2, then
build a FIRFilter on the hilbert(ntaps) kernel.  The kernel designer
gr_firdes.firdes.hilbert is an external collaborator (spec section 6), so
it is a parameter; the spec only relies on the kernel having one
coefficient per tap. -/
def HilbertImag.init {α : Type} [CommRing α] (kernel : ℕ → List α) (ntaps : ℕ) : FIRFilter α :=
  FIRFilter.init (kernel (ntaps + (1 - ntaps % 2)))

/-- State of a Hilbert block: the imaginary FIR branch, the real Delay
branch, and the declared delay. -/
structure Hilbert (α : Type) where
  filter_imag : FIRFilter α
  filter_real : DelayBlock α
  delay : ℕ
  deriving DecidableEq

/-- Hilbert.__init__: imaginary branch is the HilbertImag FIR filter,
real branch is a Delay of the same delay. -/
def Hilbert.init {α : Type} [CommRing α] (kernel : ℕ → List α) (ntaps : ℕ) : Hilbert α :=
  let fi := HilbertImag.init kernel ntaps
  ⟨fi, DelayBlock.init α fi.delay, fi.delay⟩

/-- Elementwise pairing of two one-dimensional numpy arrays under the
numpy broadcasting rules: equal lengths pair up positionally; a length-1
operand is stretched along the other operand, which for a length-0 other
operand yields the empty array; any other length mismatch raises
ValueError, modelled as none. -/
def npBroadcast2 {α : Type} (u v : List α) : Option (List (α × α)) :=
  if u.length = v.length then
    some (u.zip v)
  else
    match u, v with
    | [a], _ => some (v.map (fun b => (a, b)))
    | _, [b] => some (u.map (fun a => (a, b)))
    | _, _ => none

/-- Hilbert.batch: real + imag * 1j.  A complex sample is encoded as the
pair (real part, imaginary part); the numpy addition of the two branch
outputs follows the broadcasting rules of npBroadcast2. -/
def Hilbert.batch {α : Type} [CommRing α] (h : Hilbert α) (x : List α) :
    Option (List (α × α) × Hilbert α) :=
  let pr := h.filter_real.batch x
  let pi := h.filter_imag.batch x
  (npBroadcast2 pr.1 pi.1).map (fun ps => (ps, ⟨pi.2, pr.2, h.delay⟩))

/-- Well-formedness of a Hilbert state: the invariant a freshly built
block satisfies and every batch call preserves — at least two taps on the
imaginary branch, full FIR buffer, positive real-branch delay with a full
buffer, and the two branch delays equal. -/
def Hilbert.WF {α : Type} (h : Hilbert α) : Prop :=
  2 ≤ h.filter_imag.taps.length ∧
  h.filter_imag.buffer.length = h.filter_imag.taps.length - 1 ∧
  1 ≤ h.filter_real.delay ∧
  h.filter_real.buffer.length = h.filter_real.delay ∧
  h.filter_real.delay = FIRFilter.delay h.filter_imag

/-- State of a Downsampler: the integer ratio and the waitfor counter. -/
structure Downsampler where
  ratio : ℕ
  waitfor : ℕ
  deriving DecidableEq

/-- Downsampler.batch: if the batch fits inside waitfor, emit nothing and
decrement waitfor; otherwise emit x at indices waitfor + arange(0,
len(x) - waitfor, ratio) and set waitfor to ratio - len(x) % ratio.  All
the emitted indices are below len(x), so the numpy fancy-indexing never
goes out of bounds; filterMap get is its exact model here. -/
def Downsampler.batch {α : Type} (d : Downsampler) (x : List α) : List α × Downsampler :=
  if x.length ≤ d.waitfor then
    ([], ⟨d.ratio, d.waitfor - x.length⟩)
  else
    (((arangeStep (x.length - d.waitfor) d.ratio).map (d.waitfor + ·)).filterMap x.get?,
     ⟨d.ratio, d.ratio - x.length % d.ratio⟩)

/-- Feed a list of batches through a Downsampler, collecting the per-call
outputs in order. -/
def Downsampler.run {α : Type} (d : Downsampler) (bs : List (List α)) :
    List (List α) × Downsampler :=
  match bs with
  | [] => ([], d)
  | x :: rest =>
    let p := d.batch x
    let q := p.2.run rest
    (p.1 :: q.1, q.2)

/-- Consecutive slices x[s : s + size] for s in arange(0, len(x), size).
This is the loop body shared by RegroupBatches.put and by the
ChunkDataSource poll loop driven by apply_filter. -/
def npSlices {α : Type} (size : ℕ) (x : List α) : List (List α) :=
  (arangeStep x.length size).map (fun s => (x.drop s).take size)

/-- RegroupBatches.put on a connected consumer: the list of chunks
forwarded downstream, in forwarding order (batch is the identity). -/
def RegroupBatches.putChunks {α : Type} (out_batch_size : ℕ) (x : List α) : List (List α) :=
  npSlices out_batch_size x

/-- ChunkDataSource: the sequence of batches the poll loop pushes while
finished() is false, namely data[i : i + batch_size] for i = 0,
batch_size, 2*batch_size, ... below len(data). -/
def ChunkDataSource.chunks {α : Type} (batch_size : ℕ) (data : List α) : List (List α) :=
  npSlices batch_size data

/-- apply_filter specialized to a FIRFilter chain: pad the signal with
delay trailing zeros, push it through the filter in chunks of 179200
collecting everything into the sink, then drop the leading delay output
samples. -/
def apply_filter {α : Type} [CommRing α] (signal : List α) (taps : List α) : List α :=
  let filt := FIRFilter.init taps
  let signal_padded := signal ++ List.replicate (FIRFilter.delay filt) 0
  let outs := (filt.run (ChunkDataSource.chunks 179200 signal_padded)).1
  outs.flatten.drop (FIRFilter.delay filt)

/-- State of a MixLocalOscillator: sampling rate fps, carrier frequency
f0, and the continuous time offset t (0.0 at construction). -/
structure MixLocalOscillator where
  fps : ℝ
  f0 : ℝ
  t : ℝ

/-- MixLocalOscillator.batch: time vector t + arange(len(x)) / fps,
carrier sin(2 pi f0 time), output x * carrier, and the new offset is the
last time value plus 1 / fps.  On an empty batch the Python code indexes
the empty time vector with t[-1] and raises IndexError, modelled as
none. -/
noncomputable def MixLocalOscillator.batch (m : MixLocalOscillator) (x : List ℝ) :
    Option (List ℝ × MixLocalOscillator) :=
  match x with
  | [] => none
  | _ :: _ =>
    let tv := (List.range x.length).map (fun k : ℕ => m.t + (k : ℝ) / m.fps)
    let carrier := tv.map (fun ti => Real.sin (2 * Real.pi * m.f0 * ti))
    some (x.zipWith (· * ·) carrier, ⟨m.fps, m.f0, tv.getLastD 0 + 1 / m.fps⟩)

/-- Feed a list of batches through a MixLocalOscillator, collecting the
per-call outputs in order; a failing call fails the whole run. -/
noncomputable def MixLocalOscillator.run (m : MixLocalOscillator) (bs : List (List ℝ)) :
    Option (List (List ℝ) × MixLocalOscillator) :=
  match bs with
  | [] => some ([], m)
  | x :: rest => do
    let p ← m.batch x
    let q ← p.2.run rest
    pure (p.1 :: q.1, q.2)

/-! ## General lemmas about the valid-mode convolution -/

theorem length_convValid {α : Type} [CommRing α] (a v : List α) :
    (convValid a v).length = a.length + 1 - v.length := by
  simp [convValid]

theorem getD_drop {α : Type} [CommRing α] (l : List α) (s i : ℕ) :
    (l.drop s).getD i 0 = l.getD (s + i) 0 := by
  simp [List.getD_eq_getD_get?, List.get?_drop]

theorem convAt_append_left {α : Type} [CommRing α] (u x v : List α) (k : ℕ) (hv : 1 ≤ v.length)
    (hk : k + v.length ≤ u.length) : convAt (u ++ x) v k = convAt u v k := by
  unfold convAt
  congr 1
  apply List.map_congr_left
  intro j hj
  rw [List.mem_range] at hj
  rw [List.getD_append _ _ _ _ (by omega)]

theorem convAt_drop {α : Type} [CommRing α] (a v : List α) (s m : ℕ) :
    convAt (List.drop s a) v m = convAt a v (s + m) := by
  unfold convAt
  congr 1
  apply List.map_congr_left
  intro j hj
  rw [List.mem_range] at hj
  rw [getD_drop]
  have he : s + (m + v.length - 1 - j) = s + m + v.length - 1 - j := by omega
  rw [he]

/-- Splitting a valid-mode convolution at a batch boundary: the output on
the extended input is the output on the old input followed by the output
on the retained trailing window plus the new samples.  This is the one
fact behind the batch-size independence of the FIR filter. -/
theorem convValid_append {α : Type} [CommRing α] (u x v : List α) (hv : 1 ≤ v.length)
    (hu : v.length - 1 ≤ u.length) :
    convValid (u ++ x) v =
      convValid u v ++ convValid (u.drop (u.length - (v.length - 1)) ++ x) v := by
  unfold convValid
  rw [List.length_append, List.length_append, List.length_drop]
  have h1 : u.length + x.length + 1 - v.length = (u.length + 1 - v.length) + x.length := by omega
  have h2 : u.length - (u.length - (v.length - 1)) + x.length + 1 - v.length = x.length := by omega
  rw [h1, h2, List.range_add, List.map_append, List.map_map]
  congr 1
  · apply List.map_congr_left
    intro k hk
    rw [List.mem_range] at hk
    exact convAt_append_left u x v k hv (by omega)
  · apply List.map_congr_left
    intro m hm
    rw [List.mem_range] at hm
    show convAt (u ++ x) v (u.length + 1 - v.length + m) =
      convAt (List.drop (u.length - (v.length - 1)) u ++ x) v m
    rw [← List.drop_append_of_le_length (by omega), convAt_drop]
    congr 1
    omega

/-- Streaming invariant of the FIR filter for two or more taps: starting
from any buffer of exactly taps - 1 samples, the concatenated outputs of
a run equal the valid-mode convolution of buffer plus all input, and the
state keeps its taps and its buffer length. -/
theorem fir_run_flatten {α : Type} [CommRing α] (taps : List α) (hn : 2 ≤ taps.length) :
    ∀ (bs : List (List α)) (B : List α), B.length = taps.length - 1 →
      (FIRFilter.run ⟨taps, B⟩ bs).1.flatten = convValid (B ++ bs.flatten) taps ∧
      (FIRFilter.run ⟨taps, B⟩ bs).2.taps = taps ∧
      (FIRFilter.run ⟨taps, B⟩ bs).2.buffer.length = taps.length - 1 := by
  intro bs
  induction bs with
  | nil =>
    intro B hB
    refine ⟨?_, rfl, hB⟩
    show ([] : List α) = convValid (B ++ [].flatten) taps
    symm
    rw [← List.length_eq_zero, length_convValid]
    simp [hB]
    omega
  | cons x rest ih =>
    intro B hB
    have hnle : ¬ (taps.length ≤ 1) := by omega
    simp only [FIRFilter.run, FIRFilter.batch, filter_fft_ff, if_neg hnle]
    have hB2 : ((B ++ x).drop ((B ++ x).length - (taps.length - 1))).length = taps.length - 1 := by
      rw [List.length_drop, List.length_append]
      omega
    obtain ⟨ih1, ih2, ih3⟩ := ih ((B ++ x).drop ((B ++ x).length - (taps.length - 1))) hB2
    refine ⟨?_, ih2, ih3⟩
    show convValid (B ++ x) taps ++ _ = _
    rw [ih1, List.flatten_cons, ← List.append_assoc]
    rw [convValid_append (B ++ x) rest.flatten taps (by omega)
      (by rw [List.length_append]; omega)]

/-! ## Claim theorems -/

/-- Claim C1 (code_bug): the Downsampler is not batch-size independent.
With ratio 3 and the six-sample stream 0..5, the all-at-once run keeps
the samples at global indices 0 and 3, as the spec requires, but the run
batched in pairs additionally emits the sample at global index 5, because
batch resets waitfor to ratio - len(x) % ratio, forgetting the current
waitfor offset (the code carries a TODO comment calling this bugged). -/
theorem c1_downsampler_batch_dependent :
    (Downsampler.run ⟨3, 0⟩ [[0, 1, 2, 3, 4, 5]]).1.flatten = ([0, 3] : List ℤ) ∧
    (Downsampler.run ⟨3, 0⟩ [[0, 1], [2, 3], [4, 5]]).1.flatten = ([0, 3, 5] : List ℤ) ∧
    (Downsampler.run ⟨3, 0⟩ [[0, 1], [2, 3], [4, 5]]).1.flatten ≠
      (Downsampler.run ⟨3, 0⟩ [[0, 1, 2, 3, 4, 5]]).1.flatten :=
  ⟨by decide, by decide, by decide⟩

/-- Claim C2 (amended: ntaps at least 2 instead of at least 1): for every
coefficient vector of two or more taps and every sequence of non-empty
batches, the concatenation of the streaming outputs equals the valid-mode
convolution of ntaps - 1 leading zeros plus the concatenated input with
the coefficient vector — so the streaming output depends only on the
concatenated input, not on the chunking — and the declared delay is
ntaps / 2 rounded down. -/
theorem c2_fir_streaming {α : Type} [CommRing α] (taps : List α) (bs : List (List α))
    (hn : 2 ≤ taps.length) (hne : ∀ b ∈ bs, b ≠ []) :
    ((FIRFilter.init taps).run bs).1.flatten =
      convValid (List.replicate (taps.length - 1) 0 ++ bs.flatten) taps ∧
    (FIRFilter.init taps).delay = taps.length / 2 := by
  refine ⟨?_, rfl⟩
  exact (fir_run_flatten taps hn bs (List.replicate (taps.length - 1) 0) (by simp)).1

/-- Claim C2 counterexample: with the single-tap filter [1] the Python
slice buffer_x[-ntaps+1:] is buffer_x[0:], the whole buffer is kept, and
feeding [1] then [2] re-emits the first sample: the streaming output is
[1, 1, 2] while the claimed offline convolution of the concatenated input
is [1, 2]. -/
theorem c2_counterexample :
    ((FIRFilter.init [(1 : ℤ)]).run [[1], [2]]).1.flatten ≠
      convValid (List.replicate (([(1 : ℤ)] : List ℤ).length - 1) 0 ++ [[(1 : ℤ)], [2]].flatten)
        [(1 : ℤ)] := by
  decide

/-- Claim C2 witness: the streaming law at taps [1, 2] and batches
[[1], [2, 3]]. -/
theorem c2_witness :
    2 ≤ ([(1 : ℤ), 2] : List ℤ).length ∧ (∀ b ∈ [[(1 : ℤ)], [2, 3]], b ≠ []) ∧
    (((FIRFilter.init [(1 : ℤ), 2]).run [[1], [2, 3]]).1.flatten =
        convValid
          (List.replicate (([(1 : ℤ), 2] : List ℤ).length - 1) 0 ++ [[(1 : ℤ)], [2, 3]].flatten)
          [(1 : ℤ), 2] ∧
      (FIRFilter.init [(1 : ℤ), 2]).delay = ([(1 : ℤ), 2] : List ℤ).length / 2) :=
  ⟨by decide, by decide, c2_fir_streaming _ _ (by decide) (by decide)⟩

/-- Claim C9: on a non-sink FilterBlock with no connected consumer, put
fails with the assertion error, and does so without consulting the batch
function (the error is the same whatever batch would compute); once a
consumer is connected, put forwards batch(x) to exactly that consumer. -/
theorem c9_filterblock_put :
    (∀ (f g : List ℤ → List ℤ) (x : List ℤ),
      FilterBlock.put (none : Option ℕ) f x = Except.error () ∧
      FilterBlock.put (none : Option ℕ) f x = FilterBlock.put (none : Option ℕ) g x) ∧
    (∀ (c : ℕ) (f : List ℤ → List ℤ) (x : List ℤ),
      FilterBlock.put (some c) f x = Except.ok (c, f x)) :=
  ⟨fun _ _ _ => ⟨rfl, rfl⟩, fun _ _ _ => rfl⟩

/-- Claim C10: Splitter.put with no registered consumer is a silent no-op
that forwards nothing and raises nothing; in general it forwards the
identical batch to every registered consumer in registration order, in
contrast to FilterBlock.put, which fails on a missing consumer. -/
theorem c10_splitter_put :
    (∀ x : List ℤ, Splitter.put ([] : List ℕ) x = []) ∧
    (∀ (cs : List ℕ) (x : List ℤ), Splitter.put cs x = cs.map (fun c => (c, x))) ∧
    (∀ (f : List ℤ → List ℤ) (x : List ℤ),
      FilterBlock.put (none : Option ℕ) f x = Except.error ()) := by
  refine ⟨fun _ => rfl, ?_, fun _ _ => rfl⟩
  intro cs x
  induction cs with
  | nil => rfl
  | cons c rest ih => simp [Splitter.put, ih]

/-! ## Arithmetic of arange(0, n, r) and the slicing loops -/

theorem ceilDiv_aux (q s r : ℕ) (hr : 0 < r) (hs1 : 1 ≤ s) (hsr : s < r) :
    (r * q + s + r - 1) / r = (r * q + s) / r + 1 := by
  have hmul : r * (q + 1) = r * q + r := by ring
  have h1 : r * q + s + r - 1 = r * (q + 1) + (s - 1) := by omega
  rw [h1, Nat.mul_add_div hr, Nat.div_eq_of_lt (show s - 1 < r by omega), Nat.mul_add_div hr,
    Nat.div_eq_of_lt (show s < r by omega)]

theorem ceilDiv_of_mod_ne (n r : ℕ) (hr : 0 < r) (h : n % r ≠ 0) :
    (n + r - 1) / r = n / r + 1 := by
  have := ceilDiv_aux (n / r) (n % r) r hr (by omega) (Nat.mod_lt n hr)
  rwa [Nat.div_add_mod] at this

theorem ceilDiv_of_mod_eq (n r : ℕ) (hr : 0 < r) (h : n % r = 0) :
    (n + r - 1) / r = n / r := by
  have hdm := Nat.div_add_mod n r
  have h1 : n + r - 1 = r * (n / r) + (r - 1) := by omega
  rw [h1, Nat.mul_add_div hr, Nat.div_eq_of_lt (show r - 1 < r by omega), Nat.add_zero]

theorem arangeStep_zero (r : ℕ) : arangeStep 0 r = [] := by
  unfold arangeStep
  rcases Nat.eq_zero_or_pos r with h | h
  · subst h; rfl
  · rw [Nat.zero_add, Nat.div_eq_of_lt (by omega)]; rfl

theorem arangeStep_cons (n r : ℕ) (hr : 1 ≤ r) (hn : 1 ≤ n) :
    arangeStep n r = 0 :: (arangeStep (n - r) r).map (r + ·) := by
  unfold arangeStep
  have hc : (n + r - 1) / r = (n - r + r - 1) / r + 1 := by
    rcases le_or_lt n r with h | h
    · have h1 : n + r - 1 = (n - 1) + r := by omega
      have h2 : n - r = 0 := by omega
      rw [h1, Nat.add_div_right _ (by omega), Nat.div_eq_of_lt (by omega), h2, Nat.zero_add,
        Nat.div_eq_of_lt (by omega)]
    · have h1 : n + r - 1 = (n - r + r - 1) + r := by omega
      rw [h1, Nat.add_div_right _ (by omega)]
  rw [hc, List.range_succ_eq_map, List.map_cons, List.map_map, List.map_map]
  refine congrArg₂ _ (by rw [Nat.zero_mul]) ?_
  apply List.map_congr_left
  intro a _
  show (a + 1) * r = r + a * r
  ring

theorem npSlices_nil {α : Type} (r : ℕ) : npSlices r ([] : List α) = [] := by
  simp [npSlices, arangeStep_zero]

theorem npSlices_cons {α : Type} (r : ℕ) (x : List α) (hr : 1 ≤ r) (hx : x ≠ []) :
    npSlices r x = x.take r :: npSlices r (x.drop r) := by
  unfold npSlices
  have hxl : 1 ≤ x.length := by cases x with | nil => simp at hx | cons a t => simp
  rw [arangeStep_cons x.length r hr hxl, List.map_cons, List.map_map, List.length_drop]
  refine congrArg₂ _ (by rw [List.drop_zero]) ?_
  apply List.map_congr_left
  intro s _
  show (x.drop (r + s)).take r = ((x.drop r).drop s).take r
  rw [List.drop_drop]

theorem npSlices_flatten_aux {α : Type} (r : ℕ) (hr : 1 ≤ r) :
    ∀ (n : ℕ) (x : List α), x.length ≤ n → (npSlices r x).flatten = x := by
  intro n
  induction n with
  | zero =>
    intro x hx
    have hnil : x = [] := by rw [← List.length_eq_zero]; omega
    rw [hnil, npSlices_nil]; rfl
  | succ n ih =>
    intro x hx
    cases x with
    | nil => rw [npSlices_nil]; rfl
    | cons a t =>
      rw [npSlices_cons r _ hr (by simp), List.flatten_cons,
        ih ((a :: t).drop r) (by rw [List.length_drop]; simp at hx ⊢; omega)]
      exact List.take_append_drop r (a :: t)

theorem npSlices_flatten {α : Type} (r : ℕ) (hr : 1 ≤ r) (x : List α) :
    (npSlices r x).flatten = x :=
  npSlices_flatten_aux r hr x.length x le_rfl

theorem npSlices_chunk_le {α : Type} (r : ℕ) (x : List α) :
    ∀ c ∈ npSlices r x, c.length ≤ r := by
  intro c hc
  unfold npSlices at hc
  obtain ⟨s, _, rfl⟩ := List.mem_map.mp hc
  rw [List.length_take]
  omega

theorem npSlices_full_aux {α : Type} (r : ℕ) (hr : 1 ≤ r) :
    ∀ (n : ℕ) (x : List α), x.length ≤ n →
      ∀ i, i + 1 < (npSlices r x).length → ((npSlices r x).getD i []).length = r := by
  intro n
  induction n with
  | zero =>
    intro x hx i hi
    have hnil : x = [] := by rw [← List.length_eq_zero]; omega
    rw [hnil, npSlices_nil] at hi
    simp at hi
  | succ n ih =>
    intro x hx i hi
    cases x with
    | nil => rw [npSlices_nil] at hi; simp at hi
    | cons a t =>
      rw [npSlices_cons r _ hr (by simp)] at hi ⊢
      cases i with
      | zero =>
        rw [List.getD_cons_zero, List.length_take]
        -- there is a second chunk, so the tail slice list is non-empty,
        -- hence drop r (a :: t) is non-empty and r < length (a :: t)
        have htail : npSlices r ((a :: t).drop r) ≠ [] := by
          intro hemp
          rw [List.length_cons, hemp] at hi
          simp at hi
        have hdrop : (a :: t).drop r ≠ [] := by
          intro hemp
          rw [hemp, npSlices_nil] at htail
          exact htail rfl
        have hlen : r < (a :: t).length := by
          by_contra hle
          exact hdrop (List.drop_eq_nil_iff_le.mpr (by omega))
        omega
      | succ j =>
        rw [List.getD_cons_succ]
        refine ih ((a :: t).drop r) (by rw [List.length_drop]; simp at hx ⊢; omega) j ?_
        rw [List.length_cons] at hi
        omega

/-- Claim C7: RegroupBatches.put with a connected consumer forwards, in
order, consecutive chunks of the incoming batch whose concatenation is
the batch unchanged, each chunk of length at most out_batch_size, and
every chunk except possibly the last of length exactly out_batch_size. -/
theorem c7_regroup_batches {α : Type} (out_batch_size : ℕ) (x : List α)
    (hobs : 1 ≤ out_batch_size) :
    (RegroupBatches.putChunks out_batch_size x).flatten = x ∧
    (∀ c ∈ RegroupBatches.putChunks out_batch_size x, c.length ≤ out_batch_size) ∧
    (∀ i, i + 1 < (RegroupBatches.putChunks out_batch_size x).length →
      ((RegroupBatches.putChunks out_batch_size x).getD i []).length = out_batch_size) :=
  ⟨npSlices_flatten out_batch_size hobs x, npSlices_chunk_le out_batch_size x,
    npSlices_full_aux out_batch_size hobs x.length x le_rfl⟩

/-- Claim C7 witness: chunking [1, 2, 3, 4, 5] with out_batch_size 2. -/
theorem c7_witness :
    1 ≤ 2 ∧
    ((RegroupBatches.putChunks 2 ([1, 2, 3, 4, 5] : List ℤ)).flatten = [1, 2, 3, 4, 5] ∧
      (∀ c ∈ RegroupBatches.putChunks 2 ([1, 2, 3, 4, 5] : List ℤ), c.length ≤ 2) ∧
      (∀ i, i + 1 < (RegroupBatches.putChunks 2 ([1, 2, 3, 4, 5] : List ℤ)).length →
        ((RegroupBatches.putChunks 2 ([1, 2, 3, 4, 5] : List ℤ)).getD i []).length = 2)) :=
  ⟨by decide, c7_regroup_batches 2 [1, 2, 3, 4, 5] (by decide)⟩

/-! ## The Downsampler index set as a filter over the whole batch -/

theorem range_filter_mod (r : ℕ) (hr : 1 ≤ r) :
    ∀ n : ℕ, (List.range n).filter (fun i => decide (i % r = 0)) = arangeStep n r := by
  intro n
  induction n with
  | zero => rw [List.range_zero, arangeStep_zero]; rfl
  | succ n ih =>
    rw [List.range_succ, List.filter_append, ih]
    by_cases h : n % r = 0
    · have hf : List.filter (fun i => decide (i % r = 0)) [n] = [n] := by simp [h]
      rw [hf]
      unfold arangeStep
      have hc : (n + 1 + r - 1) / r = (n + r - 1) / r + 1 := by
        have h1 : n + 1 + r - 1 = n + r := by omega
        have h2 := ceilDiv_of_mod_eq n r (by omega) h
        have h3 : (n + r) / r = n / r + 1 := Nat.add_div_right n (by omega)
        rw [h1]
        omega
      rw [hc, List.range_succ, List.map_append]
      refine congrArg₂ _ rfl ?_
      rw [ceilDiv_of_mod_eq n r (by omega) h]
      show [n] = [n / r * r]
      rw [Nat.div_mul_cancel (Nat.dvd_of_mod_eq_zero h)]
    · have hf : List.filter (fun i => decide (i % r = 0)) [n] = [] := by simp [h]
      rw [hf, List.append_nil]
      unfold arangeStep
      have hc : (n + 1 + r - 1) / r = (n + r - 1) / r := by
        have h1 : n + 1 + r - 1 = n + r := by omega
        have h2 := ceilDiv_of_mod_ne n r (by omega) h
        have h3 : (n + r) / r = n / r + 1 := Nat.add_div_right n (by omega)
        rw [h1]
        omega
      rw [hc]

theorem range_filter_offset (L w r : ℕ) (hr : 1 ≤ r) (hw : w ≤ L) :
    (List.range L).filter (fun i => decide (w ≤ i ∧ (i - w) % r = 0)) =
      (arangeStep (L - w) r).map (w + ·) := by
  conv_lhs => rw [show L = w + (L - w) by omega]
  rw [List.range_add, List.filter_append]
  have h1 : (List.range w).filter (fun i => decide (w ≤ i ∧ (i - w) % r = 0)) = [] := by
    rw [List.filter_eq_nil_iff]
    intro a ha
    rw [List.mem_range] at ha
    simp only [decide_eq_true_eq, not_and]
    omega
  rw [h1, List.nil_append, List.filter_map]
  refine congrArg _ ?_
  rw [← range_filter_mod r hr (L - w)]
  apply List.filter_congr
  intro j _
  simp only [Function.comp_apply, decide_eq_decide]
  constructor
  · intro ⟨_, hmod⟩
    rwa [Nat.add_sub_cancel_left] at hmod
  · intro hmod
    exact ⟨Nat.le_add_right w j, by rwa [Nat.add_sub_cancel_left]⟩

/-- Claim C3 (amended: the next waitfor is ratio - L mod ratio, which
ignores the current waitfor, instead of the claimed
ratio - (L - waitfor) mod ratio): for ratio at least 1, a batch of length
L with L at most waitfor returns nothing and decrements waitfor by L;
otherwise it returns exactly the samples at positions waitfor,
waitfor + ratio, waitfor + 2*ratio, ... below L, and sets waitfor to
ratio - L mod ratio. -/
theorem c3_downsampler_batch {α : Type} (r w : ℕ) (x : List α) (hr : 1 ≤ r) :
    (x.length ≤ w → Downsampler.batch ⟨r, w⟩ x = ([], ⟨r, w - x.length⟩)) ∧
    (w < x.length →
      Downsampler.batch ⟨r, w⟩ x =
        (((List.range x.length).filter
            (fun i => decide (w ≤ i ∧ (i - w) % r = 0))).filterMap x.get?,
         ⟨r, r - x.length % r⟩)) := by
  constructor
  · intro h
    unfold Downsampler.batch
    rw [if_pos h]
  · intro h
    unfold Downsampler.batch
    rw [if_neg (show ¬ x.length ≤ w by omega), range_filter_offset x.length w r hr (by omega)]

/-- Claim C3 counterexample: from a fresh Downsampler(3), a batch of
length 2 leaves waitfor = 1; on the next batch of length 2 the code sets
waitfor to 3 - 2 mod 3 = 1, while the claimed formula
ratio - (L - waitfor) mod ratio gives 2. -/
theorem c3_counterexample :
    (Downsampler.batch ⟨3, 0⟩ ([7, 8] : List ℤ)).2 = ⟨3, 1⟩ ∧
    (Downsampler.batch ⟨3, 1⟩ ([10, 20] : List ℤ)).2.waitfor ≠
      3 - (([10, 20] : List ℤ).length - 1) % 3 :=
  ⟨by decide, by decide⟩

/-- Claim C3 witness: ratio 2, waitfor 1, batch [5, 6, 7]. -/
theorem c3_witness :
    1 ≤ 2 ∧
    ((([5, 6, 7] : List ℤ).length ≤ 1 →
        Downsampler.batch ⟨2, 1⟩ ([5, 6, 7] : List ℤ) =
          ([], ⟨2, 1 - ([5, 6, 7] : List ℤ).length⟩)) ∧
      (1 < ([5, 6, 7] : List ℤ).length →
        Downsampler.batch ⟨2, 1⟩ ([5, 6, 7] : List ℤ) =
          (((List.range ([5, 6, 7] : List ℤ).length).filter
              (fun i => decide (1 ≤ i ∧ (i - 1) % 2 = 0))).filterMap
              ([5, 6, 7] : List ℤ).get?,
           ⟨2, 2 - ([5, 6, 7] : List ℤ).length % 2⟩))) :=
  ⟨by decide, c3_downsampler_batch 2 1 [5, 6, 7] (by decide)⟩

/-! ## Delay block run invariant -/

/-- Running a Delay block with positive delay from any buffer of exactly
delay samples: each output has the length of its input, the concatenated
output is the buffer-led stream truncated to the input length, and the
state keeps its delay and its buffer length. -/
theorem delay_run {α : Type} (d : ℕ) (hd : 1 ≤ d) :
    ∀ (bs : List (List α)) (B : List α), B.length = d →
      (DelayBlock.run ⟨d, B⟩ bs).1.map List.length = bs.map List.length ∧
      (DelayBlock.run ⟨d, B⟩ bs).1.flatten = (B ++ bs.flatten).take bs.flatten.length ∧
      (DelayBlock.run ⟨d, B⟩ bs).2.delay = d ∧
      (DelayBlock.run ⟨d, B⟩ bs).2.buffer.length = d := by
  intro bs
  induction bs with
  | nil =>
    intro B hB
    refine ⟨rfl, ?_, rfl, hB⟩
    simp [DelayBlock.run]
  | cons x rest ih =>
    intro B hB
    have hd0 : ¬ d = 0 := by omega
    simp only [DelayBlock.run, DelayBlock.batch, if_neg hd0]
    have hlen : (B ++ x).length - d = x.length := by
      rw [List.length_append]
      omega
    have hB2 : ((B ++ x).drop ((B ++ x).length - d)).length = d := by
      rw [List.length_drop, List.length_append]
      omega
    obtain ⟨ih1, ih2, ih3, ih4⟩ := ih ((B ++ x).drop ((B ++ x).length - d)) hB2
    refine ⟨?_, ?_, ih3, ih4⟩
    · rw [List.map_cons, ih1, hlen, List.length_take, List.length_append]
      refine congrArg₂ _ ?_ rfl
      omega
    · simp only [List.flatten_cons]
      rw [ih2, hlen, List.length_append, ← List.append_assoc, List.take_add]
      refine congrArg₂ _ ?_ ?_
      · exact (List.take_append_of_le_length (by rw [List.length_append]; omega)).symm
      · refine congrArg _ ?_
        exact (List.drop_append_of_le_length (by rw [List.length_append]; omega)).symm

/-- Claim C4 (amended: delay d at least 1 instead of at least 0): the
batch call on a buffer state appends the new samples, returns all but the
trailing d samples of the extended buffer and retains exactly the
trailing d samples; from a fresh zero-initialized block every output has
the length of its input and the first d overall output samples are the
initial zero fill. -/
theorem c4_delay_block {α : Type} [CommRing α] (d : ℕ) (hd : 1 ≤ d) :
    (∀ (B x : List α),
      DelayBlock.batch ⟨d, B⟩ x =
        ((B ++ x).take ((B ++ x).length - d), ⟨d, (B ++ x).drop ((B ++ x).length - d)⟩)) ∧
    (∀ bs : List (List α),
      ((DelayBlock.init α d).run bs).1.map List.length = bs.map List.length ∧
      ((DelayBlock.init α d).run bs).1.flatten =
        (List.replicate d (0 : α) ++ bs.flatten).take bs.flatten.length ∧
      (d ≤ bs.flatten.length →
        ((DelayBlock.init α d).run bs).1.flatten.take d = List.replicate d (0 : α))) := by
  constructor
  · intro B x
    unfold DelayBlock.batch
    rw [if_neg (show ¬ d = 0 by omega)]
  · intro bs
    unfold DelayBlock.init
    obtain ⟨h1, h2, _, _⟩ :=
      delay_run d hd bs (List.replicate d (0 : α)) (List.length_replicate d 0)
    refine ⟨h1, h2, ?_⟩
    intro hle
    rw [h2, List.take_take, min_eq_left hle,
      List.take_append_of_le_length (by rw [List.length_replicate]),
      List.take_replicate, Nat.min_self]

/-- Claim C4 counterexample: a Delay constructed with d = 0 emits
nothing: the Python slice buffer[:-0] is empty, so batch on [5] returns
[] instead of the claimed [5], and even the output length differs from
the input length. -/
theorem c4_counterexample :
    (DelayBlock.batch (DelayBlock.init ℤ 0) [(5 : ℤ)]).1 ≠ [(5 : ℤ)] ∧
    (DelayBlock.batch (DelayBlock.init ℤ 0) [(5 : ℤ)]).1.length ≠
      ([(5 : ℤ)] : List ℤ).length :=
  ⟨by decide, by decide⟩

/-- Claim C4 witness: the Delay laws at d = 2 over the integers. -/
theorem c4_witness :
    1 ≤ 2 ∧
    ((∀ (B x : List ℤ),
        DelayBlock.batch ⟨2, B⟩ x =
          ((B ++ x).take ((B ++ x).length - 2), ⟨2, (B ++ x).drop ((B ++ x).length - 2)⟩)) ∧
      (∀ bs : List (List ℤ),
        ((DelayBlock.init ℤ 2).run bs).1.map List.length = bs.map List.length ∧
        ((DelayBlock.init ℤ 2).run bs).1.flatten =
          (List.replicate 2 (0 : ℤ) ++ bs.flatten).take bs.flatten.length ∧
        (2 ≤ bs.flatten.length →
          ((DelayBlock.init ℤ 2).run bs).1.flatten.take 2 = List.replicate 2 (0 : ℤ)))) :=
  ⟨by decide, c4_delay_block 2 (by decide)⟩

/-! ## The apply_filter driver -/

/-- Claim C5 (amended: the FIR filter must have at least 2 taps): the
driver pads the signal with delay trailing zeros, streams it through the
filter in fixed-size chunks, drops the first delay collected output
samples, and the result has exactly the length of the input signal. -/
theorem c5_apply_filter {α : Type} [CommRing α] (signal taps : List α) (hn : 2 ≤ taps.length) :
    (apply_filter signal taps).length = signal.length := by
  simp only [apply_filter, ChunkDataSource.chunks]
  rw [List.length_drop]
  have hflat :
      ((FIRFilter.init taps).run
          (npSlices 179200
            (signal ++ List.replicate (FIRFilter.delay (FIRFilter.init taps)) 0))).1.flatten =
        convValid
          (List.replicate (taps.length - 1) 0 ++
            (signal ++ List.replicate (FIRFilter.delay (FIRFilter.init taps)) 0)) taps := by
    have h := (fir_run_flatten taps hn
      (npSlices 179200 (signal ++ List.replicate (FIRFilter.delay (FIRFilter.init taps)) 0))
      (List.replicate (taps.length - 1) 0) (by simp)).1
    rwa [npSlices_flatten 179200 (by omega)] at h
  rw [hflat, length_convValid, List.length_append, List.length_append, List.length_replicate,
    List.length_replicate]
  have hdel : FIRFilter.delay (FIRFilter.init taps) = taps.length / 2 := rfl
  rw [hdel]
  omega

theorem replicate_ne_nil_of_pos {α : Type} (n : ℕ) (a : α) (hn : 1 ≤ n) :
    List.replicate n a ≠ [] := by
  intro h
  have hlen := congrArg List.length h
  rw [List.length_replicate, List.length_nil] at hlen
  omega

/-- Claim C5 counterexample: with the single-tap filter [1] (delay 0) and
a signal of 179201 zeros, the driver splits the padded signal into the
chunks of 179200 and 1 samples, and the buggy single-tap buffering
re-emits the first chunk, so the returned length is 359401, not 179201. -/
theorem c5_counterexample :
    (apply_filter (List.replicate 179201 (0 : ℤ)) [(1 : ℤ)]).length ≠ 179201 := by
  have hch : npSlices 179200 (List.replicate 179201 (0 : ℤ)) =
      [List.replicate 179200 (0 : ℤ), List.replicate 1 (0 : ℤ)] := by
    have hmin : (179200 : ℕ) ⊓ 179201 = 179200 := by omega
    have hsub : (179201 : ℕ) - 179200 = 1 := by norm_num
    rw [npSlices_cons 179200 _ (by omega) (replicate_ne_nil_of_pos _ _ (by omega)),
      List.take_replicate, List.drop_replicate, hmin, hsub]
    have hmin2 : (179200 : ℕ) ⊓ 1 = 1 := by omega
    have hsub2 : (1 : ℕ) - 179200 = 0 := by norm_num
    rw [npSlices_cons 179200 _ (by omega) (replicate_ne_nil_of_pos _ _ (by omega)),
      List.take_replicate, List.drop_replicate, hmin2, hsub2, List.replicate_zero, npSlices_nil]
  have hrun : ∀ (c1 c2 : List ℤ),
      ((FIRFilter.init [(1 : ℤ)]).run [c1, c2]).1.flatten.length =
        c1.length + (c1.length + c2.length) := by
    intro c1 c2
    simp [FIRFilter.init, FIRFilter.run, FIRFilter.batch, filter_fft_ff, length_convValid,
      List.length_append]
  have hdel : FIRFilter.delay (FIRFilter.init [(1 : ℤ)]) = 0 := rfl
  simp only [apply_filter, ChunkDataSource.chunks, hdel, List.replicate_zero, List.append_nil]
  rw [hch, List.length_drop, hrun, List.length_replicate, List.length_replicate]
  omega

/-- Claim C5 witness: a three-sample signal through the two-tap filter
[1, 1]. -/
theorem c5_witness :
    2 ≤ ([(1 : ℤ), 1] : List ℤ).length ∧
    (apply_filter ([1, 2, 3] : List ℤ) [(1 : ℤ), 1]).length = ([1, 2, 3] : List ℤ).length :=
  ⟨by decide, c5_apply_filter [1, 2, 3] [(1 : ℤ), 1] (by decide)⟩

/-! ## Per-batch output lengths and state preservation of the branches -/

theorem delay_batch_length {α : Type} (s : DelayBlock α) (x : List α) (hd : 1 ≤ s.delay)
    (hB : s.buffer.length = s.delay) : (s.batch x).1.length = x.length := by
  simp only [DelayBlock.batch, if_neg (show ¬ s.delay = 0 by omega)]
  rw [List.length_take, List.length_append]
  omega

theorem delay_batch_state_delay {α : Type} (s : DelayBlock α) (x : List α) :
    (s.batch x).2.delay = s.delay := by
  simp only [DelayBlock.batch]
  split <;> rfl

theorem delay_batch_buffer_length {α : Type} (s : DelayBlock α) (x : List α)
    (hd : 1 ≤ s.delay) (hB : s.buffer.length = s.delay) :
    (s.batch x).2.buffer.length = s.delay := by
  simp only [DelayBlock.batch, if_neg (show ¬ s.delay = 0 by omega)]
  rw [List.length_drop, List.length_append]
  omega

theorem fir_batch_length {α : Type} [CommRing α] (f : FIRFilter α) (x : List α)
    (hn : 1 ≤ f.taps.length) (hB : f.buffer.length = f.taps.length - 1) :
    (f.batch x).1.length = x.length := by
  simp only [FIRFilter.batch, filter_fft_ff]
  rw [length_convValid, List.length_append]
  omega

theorem fir_batch_state_taps {α : Type} [CommRing α] (f : FIRFilter α) (x : List α) :
    (f.batch x).2.taps = f.taps :=
  rfl

theorem fir_batch_buffer_length {α : Type} [CommRing α] (f : FIRFilter α) (x : List α)
    (hn : 2 ≤ f.taps.length) (hB : f.buffer.length = f.taps.length - 1) :
    (f.batch x).2.buffer.length = f.taps.length - 1 := by
  simp only [FIRFilter.batch, if_neg (show ¬ f.taps.length ≤ 1 by omega)]
  rw [List.length_drop, List.length_append]
  omega

/-- Claim C6 (amended: ntaps at least 2, so that the forced-odd tap count
is at least 3 and the shared delay at least 1): the effective tap count
ntaps + (1 - ntaps % 2) is odd, the real branch is a Delay of exactly the
imaginary FIR branch delay, namely half the odd tap count rounded down,
the fresh block is well-formed, and on every well-formed state a batch
call on a non-empty input pairs the real branch output with the imaginary
branch output into a complex array (encoded as pairs) and preserves
well-formedness. -/
theorem c6_hilbert {α : Type} [CommRing α] (kernel : ℕ → List α) (ntaps : ℕ)
    (hker : ∀ n, (kernel n).length = n) (hn : 2 ≤ ntaps) :
    ((ntaps + (1 - ntaps % 2)) % 2 = 1 ∧
      (Hilbert.init kernel ntaps).filter_imag.taps.length = ntaps + (1 - ntaps % 2)) ∧
    ((Hilbert.init kernel ntaps).filter_real.delay =
        FIRFilter.delay (Hilbert.init kernel ntaps).filter_imag ∧
      FIRFilter.delay (Hilbert.init kernel ntaps).filter_imag = (ntaps + (1 - ntaps % 2)) / 2 ∧
      (Hilbert.init kernel ntaps).delay = (ntaps + (1 - ntaps % 2)) / 2) ∧
    Hilbert.WF (Hilbert.init kernel ntaps) ∧
    (∀ (h : Hilbert α) (x : List α), Hilbert.WF h → x ≠ [] →
      Hilbert.batch h x =
        some ((h.filter_real.batch x).1.zip (h.filter_imag.batch x).1,
          ⟨(h.filter_imag.batch x).2, (h.filter_real.batch x).2, h.delay⟩) ∧
      Hilbert.WF ⟨(h.filter_imag.batch x).2, (h.filter_real.batch x).2, h.delay⟩) := by
  have hfi : (Hilbert.init kernel ntaps).filter_imag.taps =
      kernel (ntaps + (1 - ntaps % 2)) := rfl
  have hdel2 : FIRFilter.delay (Hilbert.init kernel ntaps).filter_imag =
      (ntaps + (1 - ntaps % 2)) / 2 := by
    show (kernel (ntaps + (1 - ntaps % 2))).length / 2 = (ntaps + (1 - ntaps % 2)) / 2
    rw [hker]
  refine ⟨⟨by omega, ?_⟩, ⟨rfl, hdel2, hdel2⟩, ⟨?_, ?_, ?_, ?_, rfl⟩, ?_⟩
  · rw [hfi, hker]
  · show 2 ≤ (kernel (ntaps + (1 - ntaps % 2))).length
    rw [hker]
    omega
  · exact List.length_replicate _ _
  · show 1 ≤ FIRFilter.delay (Hilbert.init kernel ntaps).filter_imag
    rw [hdel2]
    omega
  · exact List.length_replicate _ _
  · intro h x hWF hx
    obtain ⟨hw1, hw2, hw3, hw4, hw5⟩ := hWF
    have hlen : (h.filter_real.batch x).1.length = (h.filter_imag.batch x).1.length := by
      rw [delay_batch_length h.filter_real x hw3 hw4,
        fir_batch_length h.filter_imag x (by omega) hw2]
    constructor
    · simp only [Hilbert.batch, npBroadcast2, if_pos hlen, Option.map_some']
    · refine ⟨?_, ?_, ?_, ?_, ?_⟩
      · rw [fir_batch_state_taps]
        exact hw1
      · rw [fir_batch_state_taps]
        exact fir_batch_buffer_length h.filter_imag x hw1 hw2
      · rw [delay_batch_state_delay]
        exact hw3
      · rw [delay_batch_state_delay]
        exact delay_batch_buffer_length h.filter_real x hw3 hw4
      · rw [delay_batch_state_delay]
        exact hw5

/-- Claim C6 counterexample: with ntaps = 1 (left odd at 1, delay 0) the
real Delay branch emits nothing while the imaginary FIR branch emits one
sample per input sample, so on the two-sample batch [1, 2] the branch
outputs have lengths 0 and 2, which numpy broadcasting cannot reconcile
and the addition raises ValueError instead of returning the claimed
complex array — here any kernel of the declared length exhibits it. -/
theorem c6_counterexample :
    Hilbert.batch (Hilbert.init (fun n => List.replicate n (1 : ℤ)) 1) [(1 : ℤ), 2] = none := by
  decide

/-- Claim C6 witness: the Hilbert laws for the length-faithful stand-in
kernel of ones at ntaps = 4 (forced odd to 5). -/
theorem c6_witness :
    (∀ n, ((fun n => List.replicate n (1 : ℤ)) n).length = n) ∧ 2 ≤ 4 ∧
    (((4 + (1 - 4 % 2)) % 2 = 1 ∧
        (Hilbert.init (fun n => List.replicate n (1 : ℤ)) 4).filter_imag.taps.length =
          4 + (1 - 4 % 2)) ∧
      ((Hilbert.init (fun n => List.replicate n (1 : ℤ)) 4).filter_real.delay =
          FIRFilter.delay (Hilbert.init (fun n => List.replicate n (1 : ℤ)) 4).filter_imag ∧
        FIRFilter.delay (Hilbert.init (fun n => List.replicate n (1 : ℤ)) 4).filter_imag =
          (4 + (1 - 4 % 2)) / 2 ∧
        (Hilbert.init (fun n => List.replicate n (1 : ℤ)) 4).delay = (4 + (1 - 4 % 2)) / 2) ∧
      Hilbert.WF (Hilbert.init (fun n => List.replicate n (1 : ℤ)) 4) ∧
      (∀ (h : Hilbert ℤ) (x : List ℤ), Hilbert.WF h → x ≠ [] →
        Hilbert.batch h x =
          some ((h.filter_real.batch x).1.zip (h.filter_imag.batch x).1,
            ⟨(h.filter_imag.batch x).2, (h.filter_real.batch x).2, h.delay⟩) ∧
        Hilbert.WF ⟨(h.filter_imag.batch x).2, (h.filter_real.batch x).2, h.delay⟩)) :=
  ⟨fun n => List.length_replicate n 1, by decide,
    c6_hilbert (fun n => List.replicate n (1 : ℤ)) 4 (fun n => List.length_replicate n 1)
      (by decide)⟩

/-! ## Local-oscillator mixer: carrier phase continuity -/

theorem getLastD_map_range (f : ℕ → ℝ) (n : ℕ) (hn : 1 ≤ n) :
    ((List.range n).map f).getLastD 0 = f (n - 1) := by
  conv_lhs => rw [show n = (n - 1) + 1 by omega]
  rw [List.range_succ, List.map_append]
  exact List.getLastD_concat _ _ _

/-- On a non-empty batch the mixer multiplies the input by the carrier at
times t, t + 1/fps, ... and advances t by exactly len(x)/fps. -/
theorem mlo_batch_eq (fps f0 t : ℝ) : ∀ (x : List ℝ), x ≠ [] →
    MixLocalOscillator.batch ⟨fps, f0, t⟩ x =
      some (List.zipWith (fun a ti => a * Real.sin (2 * Real.pi * f0 * ti)) x
          ((List.range x.length).map fun k : ℕ => t + (k : ℝ) / fps),
        ⟨fps, f0, t + (x.length : ℝ) / fps⟩) := by
  intro x hx
  cases x with
  | nil => exact absurd rfl hx
  | cons a l =>
    simp only [MixLocalOscillator.batch]
    refine congrArg some (congrArg₂ Prod.mk ?_ ?_)
    · rw [List.map_map, List.zipWith_map_right, List.zipWith_map_right]
      rfl
    · refine congrArg (MixLocalOscillator.mk fps f0) ?_
      rw [getLastD_map_range _ _ (by simp), Nat.cast_sub (by simp), Nat.cast_one, add_assoc,
        div_add_div_same, sub_add_cancel]

/-- Running the mixer over non-empty batches succeeds, the concatenated
output is the concatenated input mixed against the global time grid
starting at t, and the final offset is t plus the total length over
fps — so the run depends on the batches only through their
concatenation. -/
theorem mlo_run_eq (fps f0 : ℝ) :
    ∀ (bs : List (List ℝ)) (t : ℝ), (∀ b ∈ bs, b ≠ []) →
      ∃ os : List (List ℝ),
        MixLocalOscillator.run ⟨fps, f0, t⟩ bs =
          some (os, ⟨fps, f0, t + (bs.flatten.length : ℝ) / fps⟩) ∧
        os.flatten =
          List.zipWith (fun a ti => a * Real.sin (2 * Real.pi * f0 * ti)) bs.flatten
            ((List.range bs.flatten.length).map fun k : ℕ => t + (k : ℝ) / fps) := by
  intro bs
  induction bs with
  | nil =>
    intro t _
    refine ⟨[], ?_, rfl⟩
    show some ([], (⟨fps, f0, t⟩ : MixLocalOscillator)) = _
    simp
  | cons x rest ih =>
    intro t hne
    have hx : x ≠ [] := hne x (List.mem_cons_self x rest)
    have hrest : ∀ b ∈ rest, b ≠ [] := fun b hb => hne b (List.mem_cons_of_mem x hb)
    obtain ⟨os', hrun', hflat'⟩ := ih (t + (x.length : ℝ) / fps) hrest
    refine ⟨List.zipWith (fun a ti => a * Real.sin (2 * Real.pi * f0 * ti)) x
        ((List.range x.length).map fun k : ℕ => t + (k : ℝ) / fps) :: os', ?_, ?_⟩
    · show (MixLocalOscillator.batch ⟨fps, f0, t⟩ x).bind
          (fun p => (MixLocalOscillator.run p.2 rest).bind fun q => some (p.1 :: q.1, q.2)) = _
      rw [mlo_batch_eq fps f0 t x hx, Option.some_bind]
      show (MixLocalOscillator.run ⟨fps, f0, t + (x.length : ℝ) / fps⟩ rest).bind _ = _
      rw [hrun', Option.some_bind]
      refine congrArg some (congrArg (Prod.mk _) (congrArg (MixLocalOscillator.mk fps f0) ?_))
      rw [List.flatten_cons, List.length_append]
      push_cast
      rw [add_div]
      ring
    · rw [List.flatten_cons, hflat', List.flatten_cons, List.length_append, List.range_add,
        List.map_append, List.zipWith_append _ _ _ _ _ (by simp), List.map_map]
      refine congrArg₂ _ rfl (congrArg _ ?_)
      apply List.map_congr_left
      intro k _
      show t + (x.length : ℝ) / fps + (k : ℝ) / fps = t + ((x.length + k : ℕ) : ℝ) / fps
      push_cast
      rw [add_div]
      ring

/-- Claim C8 (amended: for non-empty batches and partitions into
non-empty batches; on an empty batch the code indexes the empty time
vector and raises): a batch of length L is the input multiplied
element-wise by sin(2 pi f0 time) with the time vector starting at t with
step 1/fps, afterwards t is the old t plus L/fps, and any two partitions
of the same stream into non-empty batches give identical concatenated
outputs. -/
theorem c8_mix_local_oscillator (fps f0 t : ℝ) :
    (∀ x : List ℝ, x ≠ [] →
      MixLocalOscillator.batch ⟨fps, f0, t⟩ x =
        some (List.zipWith (fun a ti => a * Real.sin (2 * Real.pi * f0 * ti)) x
            ((List.range x.length).map fun k : ℕ => t + (k : ℝ) / fps),
          ⟨fps, f0, t + (x.length : ℝ) / fps⟩)) ∧
    (∀ P1 P2 : List (List ℝ), (∀ b ∈ P1, b ≠ []) → (∀ b ∈ P2, b ≠ []) →
      P1.flatten = P2.flatten →
      (MixLocalOscillator.run ⟨fps, f0, t⟩ P1).map (fun p => p.1.flatten) =
      (MixLocalOscillator.run ⟨fps, f0, t⟩ P2).map (fun p => p.1.flatten)) := by
  refine ⟨mlo_batch_eq fps f0 t, ?_⟩
  intro P1 P2 h1 h2 hflat
  obtain ⟨os1, hr1, hf1⟩ := mlo_run_eq fps f0 P1 t h1
  obtain ⟨os2, hr2, hf2⟩ := mlo_run_eq fps f0 P2 t h2
  rw [hr1, hr2, Option.map_some', Option.map_some', hf1, hf2, hflat]

/-- Claim C8 counterexample: on the empty batch the code evaluates
t[-1] on an empty time vector and raises IndexError instead of returning
the empty product and leaving t unchanged. -/
theorem c8_counterexample :
    MixLocalOscillator.batch ⟨1, 1, 0⟩ ([] : List ℝ) = none :=
  rfl

/-- Claim C8 witness: the batch law at fps = 1, f0 = 0, t = 0 on the
one-sample batch [1]. -/
theorem c8_witness :
    ([(1 : ℝ)] ≠ ([] : List ℝ)) ∧
    MixLocalOscillator.batch ⟨1, 0, 0⟩ [(1 : ℝ)] =
      some (List.zipWith (fun a ti => a * Real.sin (2 * Real.pi * 0 * ti)) [(1 : ℝ)]
          ((List.range ([(1 : ℝ)] : List ℝ).length).map fun k : ℕ => 0 + (k : ℝ) / 1),
        ⟨1, 0, 0 + ((([(1 : ℝ)] : List ℝ).length : ℝ)) / 1⟩) :=
  ⟨by simp, (c8_mix_local_oscillator 1 0 0).1 [(1 : ℝ)] (by simp)⟩

end HshSignal
